import Mathlib

/-!
Verification of the Enigma cipher core described in spec.md.

The repository ships only the test suite (`src/task_6/enigma.test.js`) and a
bug-fix note (`src/task_9/sample_outputs.md`) for this component; the
implementation file `enigma.js` itself is not part of the source tree.  The
definitions below are therefore modelled from the specification text, which
gives the rotor substitution formulas, the stepping state machine, the signal
path and the construction-time validation rules verbatim.  Letters are
represented by their alphabet indices (0 = A, ..., 25 = Z); text is a list of
characters.  All arithmetic that the spec writes as `(x + 26) % 26` is carried
out on `Int` with Euclidean remainder, which agrees with the JavaScript
expression on the operand ranges that occur.
-/

namespace EnigmaCore

/-- Modelled from the spec: historical rotor I wiring (EKMFLGDQVZNTOWYHXUSPAIBRCJ) as
alphabet indices; `enigma.js` is missing from the source tree, and the spec's design
note says an implementer chooses a standard published Wehrmacht Enigma I wiring set. -/
def rotorIWiring : List Nat :=
  [4, 10, 12, 5, 11, 6, 3, 16, 21, 25, 13, 19, 14, 22, 24, 7, 23, 20, 18, 15, 0, 8, 1, 17, 2, 9]

/-- Modelled from the spec: historical rotor II wiring (AJDKSIRUXBLHWTMCQGZNPYFVOE). -/
def rotorIIWiring : List Nat :=
  [0, 9, 3, 10, 18, 8, 17, 20, 23, 1, 11, 7, 22, 19, 12, 2, 16, 6, 25, 13, 15, 24, 5, 21, 14, 4]

/-- Modelled from the spec: historical rotor III wiring (BDFHJLCPRTXVZNYEIWGAKMUSQO). -/
def rotorIIIWiring : List Nat :=
  [1, 3, 5, 7, 9, 11, 2, 15, 17, 19, 23, 21, 25, 13, 24, 4, 8, 22, 6, 0, 10, 12, 20, 18, 16, 14]

/-- Modelled from the spec: reflector B wiring (YRUHQSLDPXNGOKMIEBFZCWVJAT), a fixed
involutive table with no fixed points. -/
def reflectorWiring : List Nat :=
  [24, 17, 20, 7, 16, 18, 11, 3, 15, 23, 13, 6, 14, 10, 12, 8, 4, 1, 5, 25, 2, 22, 21, 9, 0, 19]

/-- Modelled from the spec: the fixed table of historical rotor wirings, keyed by rotor
index (the spec's "closed set of historical rotor wirings as immutable tagged data"). -/
def ROTOR_WIRINGS : List (List Nat) := [rotorIWiring, rotorIIWiring, rotorIIIWiring]

/-- Modelled from the spec: notch positions of rotors I, II, III.  The test suite pins
rotor III's notch at V (index 21); Q (16) and E (4) are the historical notches of
rotors I and II. -/
def ROTOR_NOTCHES : List Nat := [16, 4, 21]

/-- Modelled from the spec: the precomputed inverse wiring table, built once at
construction ("precompute each rotor's inverse wiring table once at construction"). -/
def invertWiring (w : List Nat) : List Nat :=
  (List.range 26).map (fun i => w.indexOf i)

/-- Modelled from the spec: a rotor's state: forward wiring, its precomputed inverse,
notch position, ring setting and the mutable position. -/
structure Rotor where
  wiring : List Nat
  inverse : List Nat
  notchPosition : Nat
  ringSetting : Nat
  position : Nat
  deriving Repr, DecidableEq

/-- Modelled from the spec: the input half of the rotor formula,
`(indexOf(c) + position - ringSetting + 26) % 26`. -/
def shiftIn (p rs c : Nat) : Nat := (((c : Int) + p - rs + 26) % 26).toNat

/-- Modelled from the spec: the output half of the rotor formula,
`(indexOf(mapped) - position + ringSetting + 26) % 26`. -/
def shiftOut (p rs c : Nat) : Nat := (((c : Int) - p + rs + 26) % 26).toNat

/-- Modelled from the spec: the rotor substitution formula abstracted over the table,
since the spec says `backward` is the identical formula with the inverse table. -/
def tableApply (t : List Nat) (p rs c : Nat) : Nat :=
  shiftOut p rs (t.getD (shiftIn p rs c) 0)

/-- Modelled from the spec: `forward(c)`: `idx = (indexOf(c) + position - ringSetting
+ 26) % 26; mapped = wiring[idx]; result = (indexOf(mapped) - position + ringSetting
+ 26) % 26`. -/
def Rotor.forward (r : Rotor) (c : Nat) : Nat :=
  tableApply r.wiring r.position r.ringSetting c

/-- Modelled from the spec: `backward(c)`: identical formula but using the precomputed
inverse wiring table. -/
def Rotor.backward (r : Rotor) (c : Nat) : Nat :=
  tableApply r.inverse r.position r.ringSetting c

/-- Modelled from the spec: `atNotch()`: `position == notchPosition`. -/
def Rotor.atNotch (r : Rotor) : Bool := r.position == r.notchPosition

/-- Modelled from the spec: `step()`: `position = (position + 1) % 26`. -/
def Rotor.step (r : Rotor) : Rotor := { r with position := (r.position + 1) % 26 }

/-- Modelled from the spec: `swap(c)` of the plugboard: the paired letter if `c` is
configured, else `c` unchanged. -/
def plugboardSwap (pairs : List (Nat × Nat)) (c : Nat) : Nat :=
  match pairs.find? (fun p => p.1 == c || p.2 == c) with
  | some p => if p.1 == c then p.2 else p.1
  | none => c

/-- Modelled from the spec: `reflect(c)`: table lookup in the fixed reflector wiring. -/
def reflect (c : Nat) : Nat := reflectorWiring.getD c 0

/-- Modelled from the spec: the machine state: an ordered triple of rotors (left,
middle, right) plus the plugboard pair list; the reflector is the fixed table. -/
structure Enigma where
  left : Rotor
  middle : Rotor
  right : Rotor
  plugboardPairs : List (Nat × Nat)
  deriving Repr, DecidableEq

/-- Modelled from the spec's stepping algorithm: both at-notch flags are read before
any mutation of the cycle; the middle rotor steps if the right or the middle rotor
was at its notch; the left rotor steps if the middle rotor was at its notch (the
double-stepping anomaly); the right rotor steps unconditionally. -/
def stepRotors (m : Enigma) : Enigma :=
  let middleAtNotchBefore := m.middle.atNotch
  let rightAtNotchBefore := m.right.atNotch
  { m with
    middle := if rightAtNotchBefore || middleAtNotchBefore then m.middle.step else m.middle,
    left := if middleAtNotchBefore then m.left.step else m.left,
    right := m.right.step }

/-- Modelled from the spec's signal path: plugboard, forward rotor pass right to left,
reflector, backward rotor pass left to right, plugboard again (the second pass whose
omission was the documented source bug). -/
def cipherPath (m : Enigma) (c : Nat) : Nat :=
  plugboardSwap m.plugboardPairs
    (m.right.backward
      (m.middle.backward
        (m.left.backward
          (reflect
            (m.left.forward
              (m.middle.forward
                (m.right.forward
                  (plugboardSwap m.plugboardPairs c))))))))

/-- Modelled from the spec: one alphabetic character is processed by stepping the
rotors first and then sending the character through the signal path of the stepped
machine. -/
def encryptChar (m : Enigma) (c : Nat) : Enigma × Nat :=
  let m1 := stepRotors m
  (m1, cipherPath m1 c)

/-- Modelled from the spec: ASCII uppercase folding, the model of JavaScript
`toUpperCase` on the character range the spec admits (letters, spaces,
punctuation). -/
def toUpperChar (c : Char) : Char :=
  if 97 ≤ c.toNat ∧ c.toNat ≤ 122 then Char.ofNat (c.toNat - 32) else c

/-- Modelled from the spec: the A-Z letter test applied after uppercase folding. -/
def isUpperLetter (c : Char) : Bool := 65 ≤ c.toNat && c.toNat ≤ 90

/-- Modelled from the spec: the alphabet index of an uppercase letter. -/
def letterIndex (c : Char) : Nat := c.toNat - 65

/-- Modelled from the spec: the uppercase letter at an alphabet index. -/
def indexLetter (i : Nat) : Char := Char.ofNat (65 + i)

/-- Modelled from the spec's `process`: uppercase-fold the input; a non-letter is
emitted unchanged without stepping any rotor or touching the signal path; a letter
is run through `encryptChar` with the machine threaded through the traversal. -/
def processList (m : Enigma) : List Char → Enigma × List Char
  | [] => (m, [])
  | ch :: rest =>
    let u := toUpperChar ch
    if isUpperLetter u then
      let r := encryptChar m (letterIndex u)
      let rr := processList r.1 rest
      (rr.1, indexLetter r.2 :: rr.2)
    else
      let rr := processList m rest
      (rr.1, u :: rr.2)

/-- Modelled from the spec: the public `process(text)` entry point, returning only the
output text. -/
def Enigma.process (m : Enigma) (s : List Char) : List Char := (processList m s).2

/-- Modelled from the spec: one rotor is built from a rotor index, a position and a
ring setting, taking wiring and notch from the fixed historical table and precomputing
the inverse wiring. -/
def mkRotor (id pos ring : Nat) : Rotor :=
  let w := ROTOR_WIRINGS.getD id []
  { wiring := w, inverse := invertWiring w,
    notchPosition := ROTOR_NOTCHES.getD id 0,
    ringSetting := ring, position := pos }

/-- Modelled from the spec: the machine is built from the ordered lists of rotor
indices, positions and ring settings (left, middle, right) and the plugboard pairs. -/
def mkEnigma (ids positions rings : List Nat) (pairs : List (Nat × Nat)) : Enigma :=
  { left := mkRotor (ids.getD 0 0) (positions.getD 0 0) (rings.getD 0 0),
    middle := mkRotor (ids.getD 1 0) (positions.getD 1 0) (rings.getD 1 0),
    right := mkRotor (ids.getD 2 0) (positions.getD 2 0) (rings.getD 2 0),
    plugboardPairs := pairs }

end EnigmaCore

namespace EnigmaCore

/-! ## Validity predicates -/

/-- Forward and inverse tables that are mutually inverse bijections on `0..25`,
the invariant the spec requires of every rotor wiring and its precomputed inverse. -/
def WiringInv (w inv : List Nat) : Prop :=
  w.length = 26 ∧ inv.length = 26 ∧
  (∀ i < 26, w.getD i 0 < 26) ∧ (∀ i < 26, inv.getD i 0 < 26) ∧
  (∀ i < 26, inv.getD (w.getD i 0) 0 = i) ∧ (∀ i < 26, w.getD (inv.getD i 0) 0 = i)

instance (w inv : List Nat) : Decidable (WiringInv w inv) := by
  unfold WiringInv; infer_instance

/-- Rotor state invariant: in-range position and ring setting, inverse wiring tables. -/
def ValidRotor (r : Rotor) : Prop :=
  r.position < 26 ∧ r.ringSetting < 26 ∧ WiringInv r.wiring r.inverse

/-- Letters occurring in a plugboard pair list, in order. -/
def pairLetters (ps : List (Nat × Nat)) : List Nat := ps.flatMap (fun p => [p.1, p.2])

/-- Plugboard invariant from the spec: every pair consists of two distinct letters and
no letter is reused across pairs. -/
def ValidPlug (ps : List (Nat × Nat)) : Prop :=
  (∀ p ∈ ps, p.1 < 26 ∧ p.2 < 26 ∧ p.1 ≠ p.2) ∧ (pairLetters ps).Nodup

/-- Machine state invariant: three valid rotors and a valid plugboard. -/
def ValidEnigma (m : Enigma) : Prop :=
  ValidRotor m.left ∧ ValidRotor m.middle ∧ ValidRotor m.right ∧ ValidPlug m.plugboardPairs

/-! ## Rotor lemmas -/

theorem shiftIn_lt (p rs c : Nat) : shiftIn p rs c < 26 := by
  unfold shiftIn; omega

theorem shiftOut_lt (p rs c : Nat) : shiftOut p rs c < 26 := by
  unfold shiftOut; omega

theorem shiftIn_shiftOut (p rs c : Nat) (hc : c < 26) :
    shiftIn p rs (shiftOut p rs c) = c := by
  unfold shiftIn shiftOut; omega

theorem shiftOut_shiftIn (p rs c : Nat) (hc : c < 26) :
    shiftOut p rs (shiftIn p rs c) = c := by
  unfold shiftIn shiftOut; omega

theorem tableApply_lt (t : List Nat) (p rs c : Nat) : tableApply t p rs c < 26 :=
  shiftOut_lt _ _ _

theorem tableApply_inverse (t t2 : List Nat) (p rs : Nat)
    (hlt : ∀ i < 26, t.getD i 0 < 26)
    (hinv : ∀ i < 26, t2.getD (t.getD i 0) 0 = i)
    (c : Nat) (hc : c < 26) :
    tableApply t2 p rs (tableApply t p rs c) = c := by
  unfold tableApply
  rw [shiftIn_shiftOut _ _ _ (hlt _ (shiftIn_lt p rs c)),
    hinv _ (shiftIn_lt p rs c), shiftOut_shiftIn _ _ _ hc]

theorem Rotor.forward_lt (r : Rotor) (c : Nat) : r.forward c < 26 :=
  tableApply_lt _ _ _ _

theorem Rotor.backward_lt (r : Rotor) (c : Nat) : r.backward c < 26 :=
  tableApply_lt _ _ _ _

theorem Rotor.backward_forward (r : Rotor) (h : ValidRotor r) (c : Nat) (hc : c < 26) :
    r.backward (r.forward c) = c := by
  obtain ⟨-, -, -, -, hwlt, -, hinv, -⟩ := h
  exact tableApply_inverse _ _ _ _ hwlt hinv c hc

theorem Rotor.forward_backward (r : Rotor) (h : ValidRotor r) (c : Nat) (hc : c < 26) :
    r.forward (r.backward c) = c := by
  obtain ⟨-, -, -, -, -, hilt, -, hinv⟩ := h
  exact tableApply_inverse _ _ _ _ hilt hinv c hc

/-- The three historical wiring tables and their computed inverses satisfy the
mutual-inverse invariant. -/
theorem rotorTable_wiringInv :
    ∀ id < 3, WiringInv (ROTOR_WIRINGS.getD id []) (invertWiring (ROTOR_WIRINGS.getD id [])) := by
  decide

/-! ## Reflector lemmas -/

theorem reflect_lt (c : Nat) (hc : c < 26) : reflect c < 26 := by
  revert c hc; decide

theorem reflect_reflect (c : Nat) (hc : c < 26) : reflect (reflect c) = c := by
  revert c hc; decide

theorem reflect_ne_self (c : Nat) (hc : c < 26) : reflect c ≠ c := by
  revert c hc; decide

end EnigmaCore

namespace EnigmaCore

/-! ## Plugboard lemmas -/

theorem pairLetters_cons (q : Nat × Nat) (rest : List (Nat × Nat)) :
    pairLetters (q :: rest) = q.1 :: q.2 :: pairLetters rest := by
  simp [pairLetters]

theorem plugboardSwap_cons (q : Nat × Nat) (rest : List (Nat × Nat)) (c : Nat) :
    plugboardSwap (q :: rest) c =
      if q.1 = c ∨ q.2 = c then (if q.1 = c then q.2 else q.1)
      else plugboardSwap rest c := by
  by_cases h1 : q.1 = c
  · unfold plugboardSwap
    rw [List.find?_cons_of_pos _ (by simp [h1])]
    simp [h1]
  · by_cases h2 : q.2 = c
    · unfold plugboardSwap
      rw [List.find?_cons_of_pos _ (by simp [h2])]
      simp [h1, h2]
    · unfold plugboardSwap
      rw [List.find?_cons_of_neg _ (by simp [h1, h2])]
      simp [h1, h2]

theorem plugboardSwap_eq_or_mem (ps : List (Nat × Nat)) (c : Nat) :
    plugboardSwap ps c = c ∨ plugboardSwap ps c ∈ pairLetters ps := by
  induction ps with
  | nil => left; rfl
  | cons q rest ih =>
    rw [plugboardSwap_cons, pairLetters_cons]
    by_cases h : q.1 = c ∨ q.2 = c
    · rw [if_pos h]
      by_cases h1 : q.1 = c
      · right; rw [if_pos h1]; simp
      · right; rw [if_neg h1]; simp
    · rw [if_neg h]
      rcases ih with h' | h'
      · left; exact h'
      · right; simp [h']

theorem plugboardSwap_lt (ps : List (Nat × Nat)) (hv : ValidPlug ps) (c : Nat)
    (hc : c < 26) : plugboardSwap ps c < 26 := by
  rcases plugboardSwap_eq_or_mem ps c with h | h
  · rw [h]; exact hc
  · obtain ⟨hp, -⟩ := hv
    rw [pairLetters, List.mem_flatMap] at h
    obtain ⟨p, hmem, hin⟩ := h
    have := hp p hmem
    simp only [List.mem_cons, List.mem_singleton, List.not_mem_nil, or_false] at hin
    rcases hin with h1 | h1 <;> omega

theorem plugboardSwap_involutive (ps : List (Nat × Nat)) :
    ValidPlug ps → ∀ c, plugboardSwap ps (plugboardSwap ps c) = c := by
  induction ps with
  | nil => intro _ c; rfl
  | cons q rest ih =>
    intro hv c
    obtain ⟨hp, hnd⟩ := hv
    have hq := hp q (List.mem_cons_self q rest)
    rw [pairLetters_cons] at hnd
    have hq1 : q.1 ∉ q.2 :: pairLetters rest := (List.nodup_cons.mp hnd).1
    have hnd2 := (List.nodup_cons.mp hnd).2
    have hq2 : q.2 ∉ pairLetters rest := (List.nodup_cons.mp hnd2).1
    have hvrest : ValidPlug rest :=
      ⟨fun p hm => hp p (List.mem_cons_of_mem _ hm), (List.nodup_cons.mp hnd2).2⟩
    rw [plugboardSwap_cons q rest c]
    by_cases h : q.1 = c ∨ q.2 = c
    · rw [if_pos h]
      by_cases h1 : q.1 = c
      · rw [if_pos h1, plugboardSwap_cons q rest q.2, if_pos (Or.inr rfl), if_neg hq.2.2]
        exact h1
      · rw [if_neg h1, plugboardSwap_cons q rest q.1, if_pos (Or.inl rfl), if_pos rfl]
        exact h.resolve_left h1
    · rw [if_neg h]
      push_neg at h
      have hd := plugboardSwap_eq_or_mem rest c
      have hne1 : ¬ q.1 = plugboardSwap rest c := by
        rcases hd with h' | h'
        · rw [h']; exact h.1
        · intro he
          exact hq1 (he ▸ List.mem_cons_of_mem _ h')
      have hne2 : ¬ q.2 = plugboardSwap rest c := by
        rcases hd with h' | h'
        · rw [h']; exact h.2
        · intro he
          exact hq2 (he ▸ h')
      rw [plugboardSwap_cons q rest (plugboardSwap rest c), if_neg (by tauto)]
      exact ih hvrest c

end EnigmaCore

namespace EnigmaCore

/-! ## Signal path lemmas -/

theorem cipherPath_lt (m : Enigma) (hv : ValidPlug m.plugboardPairs) (c : Nat) :
    cipherPath m c < 26 := by
  unfold cipherPath
  exact plugboardSwap_lt _ hv _ (Rotor.backward_lt _ _)

theorem cipherPath_cipherPath (m : Enigma) (hv : ValidEnigma m) (c : Nat)
    (hc : c < 26) : cipherPath m (cipherPath m c) = c := by
  obtain ⟨hL, hM, hR, hP⟩ := hv
  unfold cipherPath
  rw [plugboardSwap_involutive _ hP,
    Rotor.forward_backward _ hR _ (Rotor.backward_lt _ _),
    Rotor.forward_backward _ hM _ (Rotor.backward_lt _ _),
    Rotor.forward_backward _ hL _ (reflect_lt _ (Rotor.forward_lt _ _)),
    reflect_reflect _ (Rotor.forward_lt _ _),
    Rotor.backward_forward _ hL _ (Rotor.forward_lt _ _),
    Rotor.backward_forward _ hM _ (Rotor.forward_lt _ _),
    Rotor.backward_forward _ hR _ (plugboardSwap_lt _ hP _ hc),
    plugboardSwap_involutive _ hP]

/-! ## Stepping lemmas -/

theorem Rotor.step_position_lt (r : Rotor) : r.step.position < 26 :=
  Nat.mod_lt _ (by omega)

theorem ValidRotor.step {r : Rotor} (h : ValidRotor r) : ValidRotor r.step :=
  ⟨Rotor.step_position_lt r, h.2.1, h.2.2⟩

theorem stepRotors_plugboard (m : Enigma) :
    (stepRotors m).plugboardPairs = m.plugboardPairs := rfl

theorem stepRotors_valid {m : Enigma} (h : ValidEnigma m) : ValidEnigma (stepRotors m) := by
  obtain ⟨hL, hM, hR, hP⟩ := h
  refine ⟨?_, ?_, hR.step, hP⟩
  · by_cases hb : m.middle.atNotch = true
    · simpa [stepRotors, hb] using hL.step
    · simpa [stepRotors, hb] using hL
  · by_cases hb : (m.right.atNotch || m.middle.atNotch) = true
    · simpa [stepRotors, hb] using hM.step
    · simpa [stepRotors, hb] using hM

theorem encryptChar_machine (m : Enigma) (c : Nat) :
    (encryptChar m c).1 = stepRotors m := rfl

theorem encryptChar_snd (m : Enigma) (c : Nat) :
    (encryptChar m c).2 = cipherPath (stepRotors m) c := rfl

/-! ## Character plumbing -/

theorem charOfNat_toNat_of_upper : ∀ n < 91, 65 ≤ n → (Char.ofNat n).toNat = n := by
  decide

theorem toUpperChar_of_not_lower (c : Char) (h : ¬(97 ≤ c.toNat ∧ c.toNat ≤ 122)) :
    toUpperChar c = c := by
  unfold toUpperChar
  rw [if_neg h]

theorem toUpperChar_toNat_of_lower (c : Char) (h : 97 ≤ c.toNat ∧ c.toNat ≤ 122) :
    (toUpperChar c).toNat = c.toNat - 32 := by
  unfold toUpperChar
  rw [if_pos h]
  exact charOfNat_toNat_of_upper _ (by omega) (by omega)

theorem toUpperChar_idem (c : Char) : toUpperChar (toUpperChar c) = toUpperChar c := by
  by_cases h : 97 ≤ c.toNat ∧ c.toNat ≤ 122
  · have ht := toUpperChar_toNat_of_lower c h
    exact toUpperChar_of_not_lower _ (by omega)
  · rw [toUpperChar_of_not_lower c h]
    exact toUpperChar_of_not_lower c h

theorem nonletter_toUpperChar_eq (c : Char) (h : isUpperLetter (toUpperChar c) = false) :
    toUpperChar c = c := by
  apply toUpperChar_of_not_lower
  intro hlow
  have ht := toUpperChar_toNat_of_lower c hlow
  unfold isUpperLetter at h
  simp only [Bool.and_eq_false_iff, decide_eq_false_iff_not] at h
  omega

theorem letterIndex_lt (c : Char) (h : isUpperLetter c = true) : letterIndex c < 26 := by
  unfold isUpperLetter at h
  simp only [Bool.and_eq_true, decide_eq_true_eq] at h
  unfold letterIndex
  omega

theorem indexLetter_facts :
    ∀ d < 26, letterIndex (indexLetter d) = d ∧ toUpperChar (indexLetter d) = indexLetter d ∧
      isUpperLetter (indexLetter d) = true := by
  decide

theorem indexLetter_letterIndex (c : Char) (h : isUpperLetter c = true) :
    indexLetter (letterIndex c) = c := by
  unfold isUpperLetter at h
  simp only [Bool.and_eq_true, decide_eq_true_eq] at h
  unfold indexLetter letterIndex
  have hn : 65 + (c.toNat - 65) = c.toNat := by omega
  rw [hn, Char.ofNat_toNat]

end EnigmaCore

namespace EnigmaCore

/-! ## Process lemmas -/

theorem processList_cons_letter (m : Enigma) (ch : Char) (rest : List Char)
    (h : isUpperLetter (toUpperChar ch) = true) :
    processList m (ch :: rest) =
      ((processList (stepRotors m) rest).1,
        indexLetter (cipherPath (stepRotors m) (letterIndex (toUpperChar ch))) ::
          (processList (stepRotors m) rest).2) := by
  simp [processList, h, encryptChar]

theorem processList_cons_nonletter (m : Enigma) (ch : Char) (rest : List Char)
    (h : isUpperLetter (toUpperChar ch) = false) :
    processList m (ch :: rest) =
      ((processList m rest).1, toUpperChar ch :: (processList m rest).2) := by
  simp [processList, h]

theorem processList_length (m : Enigma) (s : List Char) :
    (processList m s).2.length = s.length := by
  induction s generalizing m with
  | nil => rfl
  | cons ch rest ih =>
    by_cases h : isUpperLetter (toUpperChar ch) = true
    · rw [processList_cons_letter m ch rest h]
      simp [ih]
    · rw [processList_cons_nonletter m ch rest (by simpa using h)]
      simp [ih]

theorem processList_reciprocal (s : List Char) :
    ∀ m : Enigma, ValidEnigma m →
      processList m (processList m s).2 = ((processList m s).1, s.map toUpperChar) := by
  induction s with
  | nil => intro m _; rfl
  | cons ch rest ih =>
    intro m hv
    have hm1 : ValidEnigma (stepRotors m) := stepRotors_valid hv
    by_cases h : isUpperLetter (toUpperChar ch) = true
    · have hci : letterIndex (toUpperChar ch) < 26 := letterIndex_lt _ h
      have hd : cipherPath (stepRotors m) (letterIndex (toUpperChar ch)) < 26 :=
        cipherPath_lt _ hm1.2.2.2 _
      obtain ⟨hround, hupper, hletter⟩ := indexLetter_facts _ hd
      rw [processList_cons_letter m ch rest h]
      rw [processList_cons_letter m _ _ (by rw [hupper]; exact hletter)]
      rw [hupper, hround]
      rw [cipherPath_cipherPath _ hm1 _ hci]
      rw [indexLetter_letterIndex _ h]
      rw [ih _ hm1]
      simp
    · have h' : isUpperLetter (toUpperChar ch) = false := by simpa using h
      rw [processList_cons_nonletter m ch rest h']
      rw [processList_cons_nonletter m _ _ (by rw [toUpperChar_idem]; exact h')]
      rw [toUpperChar_idem]
      rw [ih _ hv]
      simp

end EnigmaCore

namespace EnigmaCore

/-! ## Configuration -/

/-- Valid configuration per the spec's external interface: exactly 3 rotor indices
into the fixed table, 3 positions and 3 ring settings in `[0,25]`, and 0-13 plugboard
pairs of distinct letters with no letter reused. -/
def validConfig (ids positions rings : List Nat) (pairs : List (Nat × Nat)) : Prop :=
  ids.length = 3 ∧ (∀ i ∈ ids, i < 3) ∧
  positions.length = 3 ∧ (∀ p ∈ positions, p < 26) ∧
  rings.length = 3 ∧ (∀ r ∈ rings, r < 26) ∧
  ValidPlug pairs ∧ pairs.length ≤ 13

instance (ps : List (Nat × Nat)) : Decidable (ValidPlug ps) := by
  unfold ValidPlug; infer_instance

instance (ids positions rings : List Nat) (pairs : List (Nat × Nat)) :
    Decidable (validConfig ids positions rings pairs) := by
  unfold validConfig; infer_instance

theorem mkRotor_valid (id pos ring : Nat) (hid : id < 3) (hp : pos < 26)
    (hr : ring < 26) : ValidRotor (mkRotor id pos ring) :=
  ⟨hp, hr, rotorTable_wiringInv id hid⟩

theorem mkEnigma_valid {ids positions rings : List Nat} {pairs : List (Nat × Nat)}
    (h : validConfig ids positions rings pairs) :
    ValidEnigma (mkEnigma ids positions rings pairs) := by
  obtain ⟨hil, him, hpl, hpm, hrl, hrm, hplug, -⟩ := h
  obtain ⟨a, b, c, rfl⟩ := List.length_eq_three.mp hil
  obtain ⟨d, e, f, rfl⟩ := List.length_eq_three.mp hpl
  obtain ⟨g, k, l, rfl⟩ := List.length_eq_three.mp hrl
  simp only [List.mem_cons, List.not_mem_nil, or_false, forall_eq_or_imp, forall_eq] at him hpm hrm
  exact ⟨mkRotor_valid a d g him.1 hpm.1 hrm.1,
    mkRotor_valid b e k him.2.1 hpm.2.1 hrm.2.1,
    mkRotor_valid c f l him.2.2 hpm.2.2 hrm.2.2, hplug⟩

/-- Modelled from the spec: the single `ConfigurationError` kind of the error
taxonomy; the constructors record which validation failed. -/
inductive ConfigurationError where
  | invalidRotorIndex
  | outOfRangePosition
  | outOfRangeRingSetting
  | invalidPlugboardPair
  | invalidWiring
  deriving Repr, DecidableEq

/-- Bijectivity of a wiring table over the 26-letter alphabet, the property the spec's
construction validates for every rotor. -/
def WiringBijective (w : List Nat) : Prop :=
  w.length = 26 ∧ ∀ j < 26, j ∈ w

instance (w : List Nat) : Decidable (WiringBijective w) := by
  unfold WiringBijective; infer_instance

/-- Involution with no fixed points, the spec's reflector validation. -/
def ReflectorValid : Prop :=
  reflectorWiring.length = 26 ∧
  ∀ c < 26, reflect c < 26 ∧ reflect (reflect c) = c ∧ reflect c ≠ c

instance : Decidable ReflectorValid := by
  unfold ReflectorValid; infer_instance

/-- Modelled from the spec: construction validates the whole configuration
synchronously and returns a `ConfigurationError` on the first violated rule; a
machine value exists only when every rule passed, so no partially-valid instance is
ever produced. -/
def mkEnigmaChecked (ids positions rings : List Nat) (pairs : List (Nat × Nat)) :
    Except ConfigurationError Enigma :=
  if ¬(ids.length = 3 ∧ ∀ i ∈ ids, i < 3) then .error .invalidRotorIndex
  else if ¬(positions.length = 3 ∧ ∀ p ∈ positions, p < 26) then .error .outOfRangePosition
  else if ¬(rings.length = 3 ∧ ∀ r ∈ rings, r < 26) then .error .outOfRangeRingSetting
  else if ¬(ValidPlug pairs ∧ pairs.length ≤ 13) then .error .invalidPlugboardPair
  else if ¬(∀ i ∈ ids, WiringBijective (ROTOR_WIRINGS.getD i [])) then .error .invalidWiring
  else if ¬ReflectorValid then .error .invalidWiring
  else .ok (mkEnigma ids positions rings pairs)

theorem rotorTable_bijective : ∀ i < 3, WiringBijective (ROTOR_WIRINGS.getD i []) := by
  decide

theorem reflector_valid : ReflectorValid := by decide

end EnigmaCore

namespace EnigmaCore

theorem mkEnigmaChecked_ok_iff_aux (ids positions rings : List Nat)
    (pairs : List (Nat × Nat)) :
    (∃ m, mkEnigmaChecked ids positions rings pairs = .ok m) ↔
      validConfig ids positions rings pairs := by
  unfold mkEnigmaChecked validConfig
  split_ifs with h1 h2 h3 h4 h5 h6
  · constructor
    · intro _
      exact ⟨h1.1, h1.2, h2.1, h2.2, h3.1, h3.2, h4.1, h4.2⟩
    · intro _
      exact ⟨mkEnigma ids positions rings pairs, rfl⟩
  · exact absurd reflector_valid h6
  · exact absurd (fun i hi => rotorTable_bijective i (h1.2 i hi)) h5
  · constructor
    · rintro ⟨m, hm⟩; cases hm
    · intro h; exact absurd ⟨h.2.2.2.2.2.2.1, h.2.2.2.2.2.2.2⟩ h4
  · constructor
    · rintro ⟨m, hm⟩; cases hm
    · intro h; exact absurd ⟨h.2.2.2.2.1, h.2.2.2.2.2.1⟩ h3
  · constructor
    · rintro ⟨m, hm⟩; cases hm
    · intro h; exact absurd ⟨h.2.2.1, h.2.2.2.1⟩ h2
  · constructor
    · rintro ⟨m, hm⟩; cases hm
    · intro h; exact absurd ⟨h.1, h.2.1⟩ h1

theorem processList_nonletter_getD (s : List Char) :
    ∀ (m : Enigma) (i : Nat), i < s.length →
      isUpperLetter (toUpperChar (s.getD i ' ')) = false →
      (processList m s).2.getD i ' ' = s.getD i ' ' := by
  induction s with
  | nil =>
    intro m i hi _
    exact absurd hi (by simp)
  | cons ch rest ih =>
    intro m i hi hnl
    cases i with
    | zero =>
      rw [List.getD_cons_zero] at hnl ⊢
      have h : isUpperLetter (toUpperChar ch) = false := hnl
      rw [processList_cons_nonletter m ch rest h]
      simpa using nonletter_toUpperChar_eq ch h
    | succ j =>
      rw [List.getD_cons_succ] at hnl ⊢
      have hj : j < rest.length := by simpa using hi
      by_cases h : isUpperLetter (toUpperChar ch) = true
      · rw [processList_cons_letter m ch rest h]
        simpa using ih (stepRotors m) j hj hnl
      · rw [processList_cons_nonletter m ch rest (by simpa using h)]
        simpa using ih m j hj hnl

theorem plugboardSwap_pair_comm (x y c : Nat) :
    plugboardSwap [(x, y)] c = plugboardSwap [(y, x)] c := by
  rw [plugboardSwap_cons (x, y) [] c, plugboardSwap_cons (y, x) [] c]
  by_cases h1 : x = c <;> by_cases h2 : y = c <;>
    simp [h1, h2, or_comm, plugboardSwap]

theorem cipherPath_plug_congr (pb pb' : List (Nat × Nat))
    (hsw : ∀ c, plugboardSwap pb c = plugboardSwap pb' c)
    (L M R : Rotor) (c : Nat) :
    cipherPath ⟨L, M, R, pb⟩ c = cipherPath ⟨L, M, R, pb'⟩ c := by
  unfold cipherPath
  simp only
  rw [hsw, hsw]

theorem processList_plug_congr (pb pb' : List (Nat × Nat))
    (hsw : ∀ c, plugboardSwap pb c = plugboardSwap pb' c) (s : List Char) :
    ∀ L M R : Rotor,
      (processList ⟨L, M, R, pb⟩ s).2 = (processList ⟨L, M, R, pb'⟩ s).2 := by
  induction s with
  | nil => intro L M R; rfl
  | cons ch rest ih =>
    intro L M R
    have hstep : ∀ q : List (Nat × Nat), stepRotors ⟨L, M, R, q⟩ =
        ⟨if M.atNotch then L.step else L,
          if R.atNotch || M.atNotch then M.step else M, R.step, q⟩ := fun q => rfl
    by_cases h : isUpperLetter (toUpperChar ch) = true
    · rw [processList_cons_letter _ ch rest h, processList_cons_letter _ ch rest h,
        hstep pb, hstep pb']
      simp only
      rw [cipherPath_plug_congr pb pb' hsw, ih]
    · rw [processList_cons_nonletter _ ch rest (by simpa using h),
        processList_cons_nonletter _ ch rest (by simpa using h)]
      simp only
      rw [ih]

end EnigmaCore

namespace EnigmaCore

/-! ## Claim theorems -/

/-- Claim C1: reciprocity of the cipher: for every valid configuration and every
plaintext, a freshly constructed machine applied to the output of an identically
configured freshly constructed machine returns the uppercase form of the
plaintext. -/
theorem claim_reciprocity (ids positions rings : List Nat) (pairs : List (Nat × Nat))
    (h : validConfig ids positions rings pairs) (s : List Char) :
    (mkEnigma ids positions rings pairs).process
        ((mkEnigma ids positions rings pairs).process s) = s.map toUpperChar := by
  unfold Enigma.process
  rw [processList_reciprocal s _ (mkEnigma_valid h)]

/-- Witness for claim C1 at the test suite's combined-settings configuration and a
plaintext containing lowercase letters, a space and punctuation. -/
theorem claim_reciprocity_witness :
    validConfig [0, 1, 2] [1, 2, 3] [4, 5, 6] [(0, 16), (22, 18)] ∧
      (mkEnigma [0, 1, 2] [1, 2, 3] [4, 5, 6] [(0, 16), (22, 18)]).process
          ((mkEnigma [0, 1, 2] [1, 2, 3] [4, 5, 6] [(0, 16), (22, 18)]).process
            ('e' :: 'n' :: 'I' :: 'G' :: '!' :: ' ' :: 'm' :: 'a' :: [])) =
        ('e' :: 'n' :: 'I' :: 'G' :: '!' :: ' ' :: 'm' :: 'a' :: []).map toUpperChar :=
  ⟨by decide, claim_reciprocity _ _ _ _ (by decide) _⟩

/-- Claim C2: per-character signal path: for every alphabetic input character, after
stepping, the emitted letter is plugboard swap, right/middle/left forward, reflector,
left/middle/right backward, then plugboard swap again, in exactly that order. -/
theorem claim_signal_path (m : Enigma) (ch : Char)
    (h : isUpperLetter (toUpperChar ch) = true) :
    (processList m [ch]).2 =
      [indexLetter
        (plugboardSwap m.plugboardPairs
          ((stepRotors m).right.backward
            ((stepRotors m).middle.backward
              ((stepRotors m).left.backward
                (reflect
                  ((stepRotors m).left.forward
                    ((stepRotors m).middle.forward
                      ((stepRotors m).right.forward
                        (plugboardSwap m.plugboardPairs
                          (letterIndex (toUpperChar ch)))))))))))] := by
  rw [processList_cons_letter m ch [] h]
  rfl

/-- Witness for claim C2 at a concrete machine and input letter. -/
theorem claim_signal_path_witness :
    isUpperLetter (toUpperChar 'x') = true ∧
      (processList (mkEnigma [0, 1, 2] [0, 0, 0] [0, 0, 0] [(0, 1)]) ['x']).2 =
        [indexLetter
          (plugboardSwap (mkEnigma [0, 1, 2] [0, 0, 0] [0, 0, 0] [(0, 1)]).plugboardPairs
            ((stepRotors (mkEnigma [0, 1, 2] [0, 0, 0] [0, 0, 0] [(0, 1)])).right.backward
              ((stepRotors (mkEnigma [0, 1, 2] [0, 0, 0] [0, 0, 0] [(0, 1)])).middle.backward
                ((stepRotors (mkEnigma [0, 1, 2] [0, 0, 0] [0, 0, 0] [(0, 1)])).left.backward
                  (reflect
                    ((stepRotors (mkEnigma [0, 1, 2] [0, 0, 0] [0, 0, 0] [(0, 1)])).left.forward
                      ((stepRotors (mkEnigma [0, 1, 2] [0, 0, 0] [0, 0, 0] [(0, 1)])).middle.forward
                        ((stepRotors (mkEnigma [0, 1, 2] [0, 0, 0] [0, 0, 0] [(0, 1)])).right.forward
                          (plugboardSwap
                            (mkEnigma [0, 1, 2] [0, 0, 0] [0, 0, 0] [(0, 1)]).plugboardPairs
                            (letterIndex (toUpperChar 'x')))))))))))] :=
  ⟨by decide, claim_signal_path _ 'x' (by decide)⟩

/-- Claim C3: stepping state machine with the double-stepping anomaly: on an
alphabetic input character the at-notch flags are read from the pre-step state; the
middle rotor steps if the right or the middle rotor was at its notch, the left rotor
steps if the middle rotor was at its notch, and the right rotor steps always. -/
theorem claim_stepping (m : Enigma) (ch : Char)
    (h : isUpperLetter (toUpperChar ch) = true) :
    (processList m [ch]).1.middle =
        (if m.right.atNotch || m.middle.atNotch then m.middle.step else m.middle) ∧
      (processList m [ch]).1.left =
        (if m.middle.atNotch then m.left.step else m.left) ∧
      (processList m [ch]).1.right = m.right.step := by
  rw [processList_cons_letter m ch [] h]
  exact ⟨rfl, rfl, rfl⟩

/-- Witness for claim C3: the double-stepping test case, right rotor at its notch. -/
theorem claim_stepping_witness :
    isUpperLetter (toUpperChar 'A') = true ∧
      (processList (mkEnigma [0, 1, 2] [0, 0, 21] [0, 0, 0] []) ['A']).1.middle =
        (if (mkEnigma [0, 1, 2] [0, 0, 21] [0, 0, 0] []).right.atNotch ||
            (mkEnigma [0, 1, 2] [0, 0, 21] [0, 0, 0] []).middle.atNotch then
          (mkEnigma [0, 1, 2] [0, 0, 21] [0, 0, 0] []).middle.step
        else (mkEnigma [0, 1, 2] [0, 0, 21] [0, 0, 0] []).middle) :=
  ⟨by decide, (claim_stepping (mkEnigma [0, 1, 2] [0, 0, 21] [0, 0, 0] []) 'A' (by decide)).1⟩

/-- Claim C4: the rotor substitution formulas of the spec, and that backward inverts
forward for every position and ring setting. -/
theorem claim_rotor_formula (id pos ring : Nat) (hid : id < 3) (hp : pos < 26)
    (hr : ring < 26) :
    (∀ c, (mkRotor id pos ring).forward c =
        ((((mkRotor id pos ring).wiring.getD
              ((((c : Int) + pos - ring + 26) % 26).toNat) 0 : Int)
            - pos + ring + 26) % 26).toNat) ∧
    (∀ c, (mkRotor id pos ring).backward c =
        ((((mkRotor id pos ring).inverse.getD
              ((((c : Int) + pos - ring + 26) % 26).toNat) 0 : Int)
            - pos + ring + 26) % 26).toNat) ∧
    (∀ c < 26, (mkRotor id pos ring).backward ((mkRotor id pos ring).forward c) = c) :=
  ⟨fun _ => rfl, fun _ => rfl,
    fun c hc => Rotor.backward_forward _ (mkRotor_valid id pos ring hid hp hr) c hc⟩

/-- Witness for claim C4 at rotor I with nonzero position and ring setting. -/
theorem claim_rotor_formula_witness :
    (0 : Nat) < 3 ∧ (5 : Nat) < 26 ∧ (7 : Nat) < 26 ∧
      (mkRotor 0 5 7).backward ((mkRotor 0 5 7).forward 3) = 3 :=
  ⟨by decide, by decide, by decide,
    (claim_rotor_formula 0 5 7 (by decide) (by decide) (by decide)).2.2 3 (by decide)⟩

/-- Claim C5: plugboard involution: for every letter and every validly configured
plugboard, swapping twice returns the letter, configured or not. -/
theorem claim_plugboard_involution (ps : List (Nat × Nat)) (hv : ValidPlug ps)
    (x : Nat) (_hx : x < 26) : plugboardSwap ps (plugboardSwap ps x) = x :=
  plugboardSwap_involutive ps hv x

/-- Witness for claim C5: a configured letter and an unconfigured letter. -/
theorem claim_plugboard_involution_witness :
    ValidPlug [(0, 25)] ∧ (0 : Nat) < 26 ∧
      plugboardSwap [(0, 25)] (plugboardSwap [(0, 25)] 0) = 0 ∧
      plugboardSwap [(0, 25)] (plugboardSwap [(0, 25)] 7) = 7 :=
  ⟨by decide, by decide, claim_plugboard_involution [(0, 25)] (by decide) 0 (by decide),
    claim_plugboard_involution [(0, 25)] (by decide) 7 (by decide)⟩

end EnigmaCore

namespace EnigmaCore

/-- Claim C6: non-letter passthrough: a character that is not an A-Z letter after
uppercase folding appears unchanged at the same index of the output, and processing
such a character alone leaves the machine state (all rotor positions) unchanged, the
plugboard, rotors and reflector never being consulted in the model's non-letter
branch. -/
theorem claim_nonletter_passthrough :
    (∀ (m : Enigma) (s : List Char) (i : Nat), i < s.length →
        isUpperLetter (toUpperChar (s.getD i ' ')) = false →
        (m.process s).getD i ' ' = s.getD i ' ') ∧
    (∀ (m : Enigma) (c : Char), isUpperLetter (toUpperChar c) = false →
        processList m [c] = (m, [c])) := by
  constructor
  · intro m s i hi hnl
    exact processList_nonletter_getD s m i hi hnl
  · intro m c h
    rw [processList_cons_nonletter m c [] h, nonletter_toUpperChar_eq c h]
    rfl

/-- Witness for claim C6: punctuation in the middle of a message, and a lone
punctuation character leaving the machine untouched. -/
theorem claim_nonletter_passthrough_witness :
    ((mkEnigma [0, 1, 2] [0, 0, 0] [0, 0, 0] []).process ('A' :: '!' :: 'b' :: [])).getD
        1 ' ' = '!' ∧
      processList (mkEnigma [0, 1, 2] [0, 0, 0] [0, 0, 0] []) ['!'] =
        (mkEnigma [0, 1, 2] [0, 0, 0] [0, 0, 0] [], ['!']) :=
  ⟨claim_nonletter_passthrough.1 _ ('A' :: '!' :: 'b' :: []) 1 (by decide) (by decide),
    claim_nonletter_passthrough.2 _ '!' (by decide)⟩

/-- Claim C7: `process` is total and length preserving: it is a total function in the
model, output length equals input length, each character is consumed in order
producing exactly one output character, and the empty input yields the empty
output. -/
theorem claim_process_total :
    (∀ (m : Enigma) (s : List Char), (m.process s).length = s.length) ∧
    (∀ (m : Enigma) (ch : Char) (rest : List Char),
        m.process (ch :: rest) =
          (processList m [ch]).2 ++ ((processList m [ch]).1).process rest) ∧
    (∀ m : Enigma, m.process [] = []) := by
  refine ⟨fun m s => processList_length m s, ?_, fun _ => rfl⟩
  intro m ch rest
  unfold Enigma.process
  by_cases h : isUpperLetter (toUpperChar ch) = true
  · rw [processList_cons_letter m ch rest h, processList_cons_letter m ch [] h]
    rfl
  · rw [processList_cons_nonletter m ch rest (by simpa using h),
      processList_cons_nonletter m ch [] (by simpa using h)]
    rfl

/-- Claim C8: construction yields a machine exactly for valid configurations; every
invalid rotor index, out-of-range position or ring setting, malformed plugboard pair
or non-bijective wiring produces a `ConfigurationError` and no machine value. -/
theorem claim_construction_errors (ids positions rings : List Nat)
    (pairs : List (Nat × Nat)) :
    (∃ m, mkEnigmaChecked ids positions rings pairs = .ok m) ↔
      validConfig ids positions rings pairs :=
  mkEnigmaChecked_ok_iff_aux ids positions rings pairs

/-- Witness for claim C8: a valid configuration constructs, an invalid rotor index, a
self-pair and a reused letter do not. -/
theorem claim_construction_errors_witness :
    (∃ m, mkEnigmaChecked [0, 1, 2] [0, 0, 0] [0, 0, 0] [(0, 1)] = .ok m) ∧
      ¬(∃ m, mkEnigmaChecked [5, 1, 2] [0, 0, 0] [0, 0, 0] [] = .ok m) ∧
      ¬(∃ m, mkEnigmaChecked [0, 1, 2] [0, 0, 0] [0, 0, 0] [(3, 3)] = .ok m) ∧
      ¬(∃ m, mkEnigmaChecked [0, 1, 2] [0, 0, 0] [0, 0, 0] [(3, 4), (4, 5)] = .ok m) :=
  ⟨(claim_construction_errors _ _ _ _).mpr (by decide),
    fun h => absurd ((claim_construction_errors _ _ _ _).mp h) (by decide),
    fun h => absurd ((claim_construction_errors _ _ _ _).mp h) (by decide),
    fun h => absurd ((claim_construction_errors _ _ _ _).mp h) (by decide)⟩

/-- Claim C9: determinism as a two-run property: two machines built from identical
configurations produce identical output on identical input; the model is a pure
function of configuration and input, with no clock or randomness. -/
theorem claim_deterministic (ids1 positions1 rings1 : List Nat)
    (pairs1 : List (Nat × Nat)) (ids2 positions2 rings2 : List Nat)
    (pairs2 : List (Nat × Nat)) (h1 : ids1 = ids2) (h2 : positions1 = positions2)
    (h3 : rings1 = rings2) (h4 : pairs1 = pairs2) (s : List Char) :
    (mkEnigma ids1 positions1 rings1 pairs1).process s =
      (mkEnigma ids2 positions2 rings2 pairs2).process s := by
  subst h1; subst h2; subst h3; subst h4; rfl

/-- Witness for claim C9 at the test suite's two-run configuration. -/
theorem claim_deterministic_witness :
    (mkEnigma [0, 1, 2] [5, 10, 15] [1, 2, 3] [(0, 1), (2, 3)]).process
        ('T' :: 'E' :: 'S' :: 'T' :: []) =
      (mkEnigma [0, 1, 2] [5, 10, 15] [1, 2, 3] [(0, 1), (2, 3)]).process
        ('T' :: 'E' :: 'S' :: 'T' :: []) :=
  claim_deterministic _ _ _ _ _ _ _ _ rfl rfl rfl rfl _

/-- Claim C10: plugboard pair order insensitivity: a machine configured with the pair
(x, y) and one configured with (y, x), all else equal, produce identical output on
every input. -/
theorem claim_plugboard_pair_order (x y : Nat) (_hx : x < 26) (_hy : y < 26)
    (_hxy : x ≠ y) (ids positions rings : List Nat) (s : List Char) :
    (mkEnigma ids positions rings [(x, y)]).process s =
      (mkEnigma ids positions rings [(y, x)]).process s := by
  unfold Enigma.process mkEnigma
  exact processList_plug_congr _ _ (plugboardSwap_pair_comm x y) s _ _ _

/-- Witness for claim C10: the test suite's reversed-pair scenario. -/
theorem claim_plugboard_pair_order_witness :
    (0 : Nat) < 26 ∧ (25 : Nat) < 26 ∧ (0 : Nat) ≠ 25 ∧
      (mkEnigma [0, 1, 2] [0, 0, 0] [0, 0, 0] [(0, 25)]).process
          ('A' :: 'Z' :: 'A' :: 'Z' :: []) =
        (mkEnigma [0, 1, 2] [0, 0, 0] [0, 0, 0] [(25, 0)]).process
          ('A' :: 'Z' :: 'A' :: 'Z' :: []) :=
  ⟨by decide, by decide, by decide,
    claim_plugboard_pair_order 0 25 (by decide) (by decide) (by decide) _ _ _ _⟩

end EnigmaCore
